import Mathlib

/-!
Verification of the reserve-data exchange bootstrap and Bolt-backed ledger.

The development shallowly embeds the huobi `BoltStorage` operations
(`NewBoltStorage`, `StorePendingIntermediateTx`, `GetPendingIntermediateTXs`,
`RemovePendingIntermediateTx`, `StoreIntermediateTx`, `GetIntermedatorTx`,
`StoreTradeHistory`, `GetTradeHistory`, `GetLastIDTradeHistory`) and the
`configuration.NewExchangePool` bootstrap orchestrator.

A bolt bucket is modelled as an association list from byte-string keys to
decoded values, kept sorted in strictly increasing byte-lexicographic key
order (bolt stores keys in byte order, with unique keys); a cursor `Seek`
is the first entry at or after the given key, `Last` is the final entry,
and `First`/`Next` iterate in key order.  JSON (de)serialisation of the
record types is modelled as the identity round-trip on typed values.
-/

/-- Byte-lexicographic comparison of byte strings: the semantics of Go's
`bytes.Compare` (compare the common prefix element-wise, then by length). -/
def bytesCompare : List Nat → List Nat → Ordering
  | [], [] => Ordering.eq
  | [], _ :: _ => Ordering.lt
  | _ :: _, [] => Ordering.gt
  | a :: as, b :: bs =>
    if a < b then Ordering.lt
    else if b < a then Ordering.gt
    else bytesCompare as bs

theorem bytesCompare_self (a : List Nat) : bytesCompare a a = Ordering.eq := by
  induction a with
  | nil => rfl
  | cons x xs ih => simp [bytesCompare, ih]

theorem bytesCompare_eq_iff {a b : List Nat} :
    bytesCompare a b = Ordering.eq ↔ a = b := by
  constructor
  · intro h
    induction a generalizing b with
    | nil => cases b with
      | nil => rfl
      | cons y ys => simp [bytesCompare] at h
    | cons x xs ih =>
      cases b with
      | nil => simp [bytesCompare] at h
      | cons y ys =>
        simp only [bytesCompare] at h
        split at h
        · exact absurd h (by simp)
        · split at h
          · exact absurd h (by simp)
          · have hxy : x = y := by omega
            rw [hxy, ih h]
  · intro h; subst h; exact bytesCompare_self a

theorem bytesCompare_gt_iff_lt {a b : List Nat} :
    bytesCompare a b = Ordering.gt ↔ bytesCompare b a = Ordering.lt := by
  induction a generalizing b with
  | nil => cases b <;> simp [bytesCompare]
  | cons x xs ih =>
    cases b with
    | nil => simp [bytesCompare]
    | cons y ys =>
      simp only [bytesCompare]
      rcases Nat.lt_trichotomy x y with h | h | h
      · simp [h, Nat.lt_asymm h]
      · subst h
        simp only [Nat.lt_irrefl, if_false]
        exact ih
      · simp [h, Nat.lt_asymm h]

theorem bytesCompare_lt_trans {a b c : List Nat}
    (hab : bytesCompare a b = Ordering.lt) (hbc : bytesCompare b c = Ordering.lt) :
    bytesCompare a c = Ordering.lt := by
  induction a generalizing b c with
  | nil =>
    cases b with
    | nil => simp [bytesCompare] at hab
    | cons y ys =>
      cases c with
      | nil => simp [bytesCompare] at hbc
      | cons z zs => simp [bytesCompare]
  | cons x xs ih =>
    cases b with
    | nil => simp [bytesCompare] at hab
    | cons y ys =>
      cases c with
      | nil => simp [bytesCompare] at hbc
      | cons z zs =>
        simp only [bytesCompare] at hab hbc ⊢
        rcases Nat.lt_trichotomy x y with hxy | hxy | hxy
        · rw [if_pos hxy] at hab
          rcases Nat.lt_trichotomy y z with hyz | hyz | hyz
          · rw [if_pos (by omega)]
          · subst hyz; rw [if_pos hxy]
          · rw [if_neg (by omega), if_pos hyz] at hbc; simp at hbc
        · subst hxy
          rw [if_neg (by omega), if_neg (by omega)] at hab
          rcases Nat.lt_trichotomy x z with hyz | hyz | hyz
          · rw [if_pos hyz]
          · subst hyz
            rw [if_neg (by omega), if_neg (by omega)] at hbc ⊢
            exact ih hab hbc
          · rw [if_neg (by omega), if_pos hyz] at hbc; simp at hbc
        · rw [if_neg (by omega), if_pos hxy] at hab; simp at hab

/-- `n`-byte big-endian base-256 expansion of a natural number, most
significant byte first. -/
def beBytes : Nat → Nat → List Nat
  | 0, _ => []
  | n + 1, u => (u / 256 ^ n) :: beBytes n (u % 256 ^ n)

theorem beBytes_compare_lt {n a b : Nat} (ha : a < 256 ^ n) (hb : b < 256 ^ n) :
    bytesCompare (beBytes n a) (beBytes n b) = Ordering.lt ↔ a < b := by
  induction n generalizing a b with
  | zero =>
    simp only [pow_zero, Nat.lt_one_iff] at ha hb
    subst ha; subst hb
    simp [beBytes, bytesCompare]
  | succ n ih =>
    simp only [beBytes, bytesCompare]
    have hpos : 0 < 256 ^ n := Nat.pos_pow_of_pos n (by norm_num)
    rcases Nat.lt_trichotomy (a / 256 ^ n) (b / 256 ^ n) with h | h | h
    · rw [if_pos h]
      simp only [true_iff]
      exact Nat.lt_of_div_lt_div h
    · rw [if_neg (by omega), if_neg (by omega)]
      rw [ih (Nat.mod_lt _ hpos) (Nat.mod_lt _ hpos)]
      have hda := Nat.div_add_mod a (256 ^ n)
      have hdb := Nat.div_add_mod b (256 ^ n)
      constructor
      · intro hlt
        have h1 := Nat.add_lt_add_left hlt (256 ^ n * (a / 256 ^ n))
        rw [hda] at h1
        rw [h, hdb] at h1
        exact h1
      · intro hlt
        have h1 : 256 ^ n * (a / 256 ^ n) + a % 256 ^ n
            < 256 ^ n * (b / 256 ^ n) + b % 256 ^ n := by
          rw [hda, hdb]; exact hlt
        rw [h] at h1
        exact Nat.lt_of_add_lt_add_left h1
    · rw [if_neg (by omega), if_pos h]
      constructor
      · intro hcontr; exact absurd hcontr (by simp)
      · intro hab
        exact absurd h (Nat.not_lt.mpr (Nat.div_le_div_right (Nat.le_of_lt hab)))

theorem beBytes_compare_eq {n a b : Nat} (ha : a < 256 ^ n) (hb : b < 256 ^ n) :
    bytesCompare (beBytes n a) (beBytes n b) = Ordering.eq ↔ a = b := by
  constructor
  · intro h
    by_contra hne
    rcases Nat.lt_trichotomy a b with hab | hab | hab
    · rw [(beBytes_compare_lt ha hb).mpr hab] at h; exact absurd h (by simp)
    · exact hne hab
    · have hlt := (beBytes_compare_lt hb ha).mpr hab
      rw [bytesCompare_eq_iff] at h
      rw [h, bytesCompare_self] at hlt
      exact absurd hlt (by simp)
  · intro h; subst h; exact bytesCompare_self _

/-- `uint64ToBytes`: the 8-byte big-endian encoding of a `uint64`
(`binary.BigEndian.PutUint64`); byte `i` is `u >> (56 - 8*i)` truncated
to 8 bits.  The `% 2 ^ 64` reflects the Go `uint64` argument type. -/
def uint64ToBytes (u : Nat) : List Nat :=
  let v := u % 2 ^ 64
  [v / 2 ^ 56 % 256, v / 2 ^ 48 % 256, v / 2 ^ 40 % 256, v / 2 ^ 32 % 256,
   v / 2 ^ 24 % 256, v / 2 ^ 16 % 256, v / 2 ^ 8 % 256, v % 256]

/-- `bytesToUint64`: big-endian decoding, inverse of `uint64ToBytes`. -/
def bytesToUint64 (b : List Nat) : Nat :=
  b.foldl (fun acc x => acc * 256 + x % 256) 0

theorem uint64ToBytes_eq_beBytes (u : Nat) :
    uint64ToBytes u = beBytes 8 (u % 2 ^ 64) := by
  have h : u % 2 ^ 64 < 2 ^ 64 := Nat.mod_lt _ (by norm_num)
  simp only [uint64ToBytes, beBytes]
  norm_num [List.cons.injEq]
  omega

theorem uint64ToBytes_lt_iff {a b : Nat} (ha : a < 2 ^ 64) (hb : b < 2 ^ 64) :
    bytesCompare (uint64ToBytes a) (uint64ToBytes b) = Ordering.lt ↔ a < b := by
  rw [uint64ToBytes_eq_beBytes, uint64ToBytes_eq_beBytes,
    Nat.mod_eq_of_lt ha, Nat.mod_eq_of_lt hb]
  exact beBytes_compare_lt (by norm_num at ha ⊢; omega) (by norm_num at hb ⊢; omega)

theorem uint64ToBytes_eq_iff {a b : Nat} (ha : a < 2 ^ 64) (hb : b < 2 ^ 64) :
    uint64ToBytes a = uint64ToBytes b ↔ a = b := by
  rw [← bytesCompare_eq_iff, uint64ToBytes_eq_beBytes, uint64ToBytes_eq_beBytes,
    Nat.mod_eq_of_lt ha, Nat.mod_eq_of_lt hb]
  exact beBytes_compare_eq (by norm_num at ha ⊢; omega) (by norm_num at hb ⊢; omega)

theorem uint64ToBytes_gt_iff {a b : Nat} (ha : a < 2 ^ 64) (hb : b < 2 ^ 64) :
    bytesCompare (uint64ToBytes a) (uint64ToBytes b) = Ordering.gt ↔ b < a := by
  rw [bytesCompare_gt_iff_lt]
  exact uint64ToBytes_lt_iff hb ha

/-- `isTheSame`: element-wise equality of two byte strings (length checked
first, then every position compared). -/
def isTheSame : List Nat → List Nat → Bool
  | [], [] => true
  | [], _ :: _ => false
  | _ :: _, [] => false
  | a :: as, b :: bs => if b ≠ a then false else isTheSame as bs

theorem isTheSame_iff {a b : List Nat} : isTheSame a b = true ↔ a = b := by
  induction a generalizing b with
  | nil => cases b <;> simp [isTheSame]
  | cons x xs ih =>
    cases b with
    | nil => simp [isTheSame]
    | cons y ys =>
      by_cases h : y = x
      · subst h
        simp [isTheSame, ih]
      · constructor
        · intro hf
          simp [isTheSame, h] at hf
        · intro hl
          injection hl with h1 _
          exact absurd h1.symm h

/-- A bolt bucket: an association list from byte-string keys to values.
The engine keeps keys unique and in increasing byte order; `bucketPut`
is the engine's `Put`, inserting at the sorted position or overwriting
the entry whose key is already present. -/
def bucketPut {α : Type} (k : List Nat) (v : α) :
    List (List Nat × α) → List (List Nat × α)
  | [] => [(k, v)]
  | e :: rest =>
    match bytesCompare k e.1 with
    | Ordering.lt => (k, v) :: e :: rest
    | Ordering.eq => (k, v) :: rest
    | Ordering.gt => e :: bucketPut k v rest

/-- Strict byte-order sortedness of a bucket (bolt's representation
invariant: keys unique, in increasing byte-lexicographic order). -/
def BucketSorted {α : Type} (l : List (List Nat × α)) : Prop :=
  l.Pairwise (fun e e' => bytesCompare e.1 e'.1 = Ordering.lt)

theorem bucketPut_mem {α : Type} {k : List Nat} {v : α}
    {l : List (List Nat × α)} {e : List Nat × α} (he : e ∈ bucketPut k v l) :
    e = (k, v) ∨ e ∈ l := by
  induction l with
  | nil =>
    simp only [bucketPut, List.mem_singleton] at he
    exact Or.inl he
  | cons x rest ih =>
    simp only [bucketPut] at he
    split at he
    · rcases List.mem_cons.mp he with h | h
      · exact Or.inl h
      · exact Or.inr h
    · rcases List.mem_cons.mp he with h | h
      · exact Or.inl h
      · exact Or.inr (List.mem_cons_of_mem x h)
    · rcases List.mem_cons.mp he with h | h
      · exact Or.inr (by simp [h])
      · rcases ih h with h2 | h2
        · exact Or.inl h2
        · exact Or.inr (List.mem_cons_of_mem x h2)

theorem bucketPut_sorted {α : Type} {k : List Nat} {v : α}
    {l : List (List Nat × α)} (hs : BucketSorted l) :
    BucketSorted (bucketPut k v l) := by
  induction l with
  | nil => simp [bucketPut, BucketSorted]
  | cons x rest ih =>
    simp only [BucketSorted, List.pairwise_cons] at hs
    obtain ⟨hx, hrest⟩ := hs
    simp only [bucketPut]
    split
    · next hc =>
      simp only [BucketSorted, List.pairwise_cons]
      refine ⟨?_, ?_, hrest⟩
      · intro e he
        rcases List.mem_cons.mp he with he | he
        · subst he; exact hc
        · exact bytesCompare_lt_trans hc (hx e he)
      · exact hx
    · next hc =>
      rw [bytesCompare_eq_iff] at hc
      simp only [BucketSorted, List.pairwise_cons]
      exact ⟨fun e he => hc ▸ hx e he, hrest⟩
    · next hc =>
      simp only [BucketSorted, List.pairwise_cons]
      refine ⟨?_, ih hrest⟩
      intro e he
      rcases bucketPut_mem he with he | he
      · subst he
        exact bytesCompare_gt_iff_lt.mp hc
      · exact hx e he

/-- After `Put k v`, a `Seek k` cursor lands exactly on the entry `(k, v)`:
dropping the entries whose key precedes `k` exposes `(k, v)` first. -/
theorem bucketPut_seek {α : Type} {k : List Nat} {v : α}
    {l : List (List Nat × α)} (hs : BucketSorted l) :
    ∃ rest, (bucketPut k v l).dropWhile
      (fun e => bytesCompare e.1 k == Ordering.lt) = (k, v) :: rest := by
  induction l with
  | nil =>
    refine ⟨[], ?_⟩
    simp only [bucketPut]
    rw [List.dropWhile_cons, if_neg (by simp only [bytesCompare_self]; decide)]
  | cons x rest ih =>
    simp only [BucketSorted, List.pairwise_cons] at hs
    obtain ⟨hx, hrest⟩ := hs
    simp only [bucketPut]
    split
    · next hc =>
      refine ⟨x :: rest, ?_⟩
      rw [List.dropWhile_cons, if_neg (by simp only [bytesCompare_self]; decide)]
    · next hc =>
      refine ⟨rest, ?_⟩
      rw [List.dropWhile_cons, if_neg (by simp only [bytesCompare_self]; decide)]
    · next hc =>
      obtain ⟨r, hr⟩ := ih hrest
      refine ⟨r, ?_⟩
      rw [List.dropWhile_cons,
        if_pos (by rw [bytesCompare_gt_iff_lt.mp hc]; decide)]
      exact hr

/-- In a sorted bucket, after overwriting key `k`, the entries carrying key
`k` are exactly the one just written (last-write-wins, no duplicate key). -/
theorem bucketPut_filter {α : Type} {k : List Nat} {v : α}
    {l : List (List Nat × α)} (hs : BucketSorted l) :
    (bucketPut k v l).filter (fun e => isTheSame e.1 k) = [(k, v)] := by
  have hnil : ∀ m : List (List Nat × α), (∀ e ∈ m, e.1 ≠ k) →
      m.filter (fun e => isTheSame e.1 k) = [] := by
    intro m hm
    rw [List.filter_eq_nil_iff]
    intro e he
    simp only [isTheSame_iff]
    exact hm e he
  induction l with
  | nil =>
    simp only [bucketPut]
    rw [List.filter_cons_of_pos (by simp [isTheSame_iff]), List.filter_nil]
  | cons x rest ih =>
    simp only [BucketSorted, List.pairwise_cons] at hs
    obtain ⟨hx, hrest⟩ := hs
    simp only [bucketPut]
    split
    · next hc =>
      rw [List.filter_cons_of_pos (by simp [isTheSame_iff])]
      rw [hnil (x :: rest) ?_]
      intro e he hek
      rcases List.mem_cons.mp he with he | he
      · subst he
        rw [hek, bytesCompare_self] at hc
        exact absurd hc (by simp)
      · have h2 := bytesCompare_lt_trans hc (hx e he)
        rw [hek, bytesCompare_self] at h2
        exact absurd h2 (by simp)
    · next hc =>
      rw [List.filter_cons_of_pos (by simp [isTheSame_iff])]
      rw [bytesCompare_eq_iff] at hc
      rw [hnil rest ?_]
      intro e he hek
      have h2 := hx e he
      rw [hek, ← hc, bytesCompare_self] at h2
      exact absurd h2 (by simp)
    · next hc =>
      rw [List.filter_cons_of_neg ?_, ih hrest]
      simp only [isTheSame_iff]
      intro hek
      rw [← hek, bytesCompare_gt_iff_lt, bytesCompare_self] at hc
      exact absurd hc (by simp)

/-- Modelled from the spec: `common.TradeHistory` (not under `src/`) is one
trade snapshot carrying the external trade identifier, the millisecond
timestamp (`uint64`), and further trade fields (price/volume/side), which
the ledger never inspects and which are kept opaque here. -/
structure TradeHistory where
  ID : String
  Timestamp : Nat
  Fields : String
deriving DecidableEq

/-- The zero value `common.TradeHistory{}` (all fields empty). -/
def TradeHistory.zero : TradeHistory := { ID := "", Timestamp := 0, Fields := "" }

/-- Modelled from the spec: `common.TXEntry` (not under `src/`) is the
observed on-chain transaction state for one activity — at minimum the
transaction hash, a status and timestamps. -/
structure TXEntry where
  Hash : String
  Status : String
  Timestamp : String
deriving DecidableEq

/-- Modelled from the spec: `common.ActivityID` (not under `src/`) is the
opaque composite identifier of one tracked operation, a (timepoint, EID)
pair with canonical structural equality. -/
structure ActivityID where
  Timepoint : Nat
  EID : String
deriving DecidableEq

/-- Modelled from the spec: `ActivityID.ToBytes` (not under `src/`) is the
fixed-width binary encoding of an activity id used as the confirmed
partition key: an 8-byte big-endian timepoint followed by the EID bytes in
a zero-padded 64-byte frame. -/
def ActivityID.ToBytes (id : ActivityID) : List Nat :=
  let raw := uint64ToBytes id.Timepoint ++ id.EID.toList.map Char.toNat
  raw.take 64 ++ List.replicate (64 - raw.length) 0

/-- Modelled from the spec: `common.AllTradeHistory` (not under `src/`) is a
capture-timestamped snapshot, a mapping exchange → trading pair → ordered
records (Go maps modelled as association lists, slices as lists). -/
structure AllTradeHistory where
  Timestamp : String
  Data : List (String × List (String × List TradeHistory))

/-- One trade-history pair bucket: timestamp-encoded keys to records. -/
abbrev PairBucket : Type := List (List Nat × TradeHistory)

/-- `MAX_GET_TRADE_HISTORY`: the 3-day millisecond window bound. -/
def MAX_GET_TRADE_HISTORY : Nat := 3 * 86400000

/-- The state of one huobi `BoltStorage` database: the three partitions
created by `NewBoltStorage` (`INTERMEDIATE_TX`, `PENDING_INTERMEDIATE_TX`,
`TRADE_HISTORY`).  The confirmed partition maps 64-byte binary activity ids
to entries; the pending partition maps JSON-encoded activity ids to entries
(JSON keys are in bijection with ids, so the partition is keyed by the id
itself); the trade-history partition nests exchange → pair → pair bucket. -/
structure BoltState where
  intermediateTx : List (List Nat × TXEntry)
  pendingTx : List (ActivityID × TXEntry)
  tradeHistory : List (String × List (String × PairBucket))

/-- The state `NewBoltStorage` leaves a fresh database file in: all three
partitions exist and are empty. -/
def NewBoltStorage : BoltState :=
  { intermediateTx := [], pendingTx := [], tradeHistory := [] }

/-- First-occurrence lookup in an association list (a Go map read; bolt
buckets and Go maps both have unique keys). -/
def assocGet {κ α : Type} [DecidableEq κ] (k : κ) : List (κ × α) → Option α
  | [] => none
  | e :: rest => if e.1 = k then some e.2 else assocGet k rest

/-- Update-or-insert in an association list: apply `f` to the value at `k`
(starting from the default `d` if `k` is absent).  This is
`CreateBucketIfNotExists` followed by writes inside the bucket. -/
def assocUpdate {κ α : Type} [DecidableEq κ] (k : κ) (d : α) (f : α → α) :
    List (κ × α) → List (κ × α)
  | [] => [(k, f d)]
  | e :: rest => if e.1 = k then (k, f e.2) :: rest else e :: assocUpdate k d f rest

theorem assocGet_update_self {κ α : Type} [DecidableEq κ] (k : κ) (d : α)
    (f : α → α) (l : List (κ × α)) :
    assocGet k (assocUpdate k d f l) = some (f ((assocGet k l).getD d)) := by
  induction l with
  | nil => simp [assocGet, assocUpdate]
  | cons e rest ih =>
    by_cases h : e.1 = k
    · simp [assocGet, assocUpdate, h]
    · simp [assocGet, assocUpdate, h, ih]

theorem assocGet_update_other {κ α : Type} [DecidableEq κ] {k k' : κ}
    (hne : k' ≠ k) (d : α) (f : α → α) (l : List (κ × α)) :
    assocGet k' (assocUpdate k d f l) = assocGet k' l := by
  induction l with
  | nil =>
    simp only [assocUpdate, assocGet, if_neg (fun h : k = k' => hne h.symm)]
  | cons e rest ih =>
    by_cases h : e.1 = k
    · simp [assocGet, assocUpdate, h, if_neg (fun hh : k = k' => hne hh.symm)]
    · simp [assocGet, assocUpdate, h, ih]

/-- `GetPendingIntermediateTXs`: full cursor scan of the pending partition,
decoding every key/value pair into the result map. -/
def GetPendingIntermediateTXs (s : BoltState) : List (ActivityID × TXEntry) :=
  s.pendingTx

/-- Go map read on the result of `GetPendingIntermediateTXs`. -/
def mapGet (m : List (ActivityID × TXEntry)) (id : ActivityID) : Option TXEntry :=
  assocGet id m

/-- The pending-partition `Put`: key is the JSON encoding of the id, value
the JSON encoding of the entry; an existing key is overwritten in place. -/
def pendingPut (id : ActivityID) (v : TXEntry) :
    List (ActivityID × TXEntry) → List (ActivityID × TXEntry)
  | [] => [(id, v)]
  | e :: rest => if e.1 = id then (id, v) :: rest else e :: pendingPut id v rest

/-- The pending-partition `Delete`: removes the (unique) entry keyed by the
JSON encoding of the id, if present. -/
def pendingDelete (id : ActivityID) :
    List (ActivityID × TXEntry) → List (ActivityID × TXEntry)
  | [] => []
  | e :: rest => if e.1 = id then rest else e :: pendingDelete id rest

/-- `StorePendingIntermediateTx`: marshals the entry and the id and `Put`s
them into the pending partition. -/
def StorePendingIntermediateTx (s : BoltState) (id : ActivityID)
    (data : TXEntry) : BoltState :=
  { s with pendingTx := pendingPut id data s.pendingTx }

/-- `RemovePendingIntermediateTx`: inside `db.Update`, marshals the id and
deletes its key; `deleteErr` is the storage engine's answer to the
`b.Delete` call.  The function-level `err` is returned, but the closure's
`idJson, err := json.Marshal(id)` declares a new `err` that shadows it and
the result of `self.db.Update(...)` is discarded, so the returned error is
always `nil`; on an engine failure the transaction rolls back unapplied. -/
def RemovePendingIntermediateTx (s : BoltState) (id : ActivityID)
    (deleteErr : Option String) : BoltState × Option String :=
  let s' :=
    match deleteErr with
    | some _ => s
    | none => { s with pendingTx := pendingDelete id s.pendingTx }
  (s', none)

/-- `StoreIntermediateTx`: marshals the entry and `Put`s it into the
confirmed partition under the 64-byte binary encoding of the id. -/
def StoreIntermediateTx (s : BoltState) (id : ActivityID)
    (data : TXEntry) : BoltState :=
  { s with intermediateTx := bucketPut id.ToBytes data s.intermediateTx }

/-- `GetIntermedatorTx`: seeks the confirmed partition's cursor to the
binary id; if the key found at or after the seek point is not `isTheSame`
as the target (including a nil key when the cursor runs past the end, whose
length can never match the 64-byte target), a recoverable "not found — try
later" error is returned. -/
def GetIntermedatorTx (s : BoltState) (id : ActivityID) :
    Except String TXEntry :=
  let idBytes := id.ToBytes
  match s.intermediateTx.dropWhile
      (fun e => bytesCompare e.1 idBytes == Ordering.lt) with
  | [] => Except.error "Can not find 2nd transaction tx for the deposit, please try later"
  | e :: _ =>
    if isTheSame e.1 idBytes then Except.ok e.2
    else Except.error "Can not find 2nd transaction tx for the deposit, please try later"

/-- Wrapping 64-bit subtraction: the semantics of `toTime - fromTime` on Go
`uint64` operands. -/
def usub64 (a b : Nat) : Nat :=
  (a % 2 ^ 64 + (2 ^ 64 - b % 2 ^ 64)) % 2 ^ 64

/-- `StoreTradeHistory`: for every exchange and pair in the snapshot,
create the nested buckets if absent and upsert every record under its
8-byte big-endian timestamp key.  Bucket-creation and `Put` failures are
only logged inside the loop (see `StoreTradeHistoryReturnedError`), so the
state effect is total. -/
def StoreTradeHistory (s : BoltState) (data : AllTradeHistory) : BoltState :=
  let th := data.Data.foldl
    (fun th exData =>
      assocUpdate exData.1 []
        (fun exchangeBk =>
          exData.2.foldl
            (fun exBk pairData =>
              assocUpdate pairData.1 ([] : PairBucket)
                (fun pairBk =>
                  pairData.2.foldl
                    (fun bk history =>
                      bucketPut (uint64ToBytes history.Timestamp) history bk)
                    pairBk)
                exBk)
            exchangeBk)
        th)
    s.tradeHistory
  { s with tradeHistory := th }

/-- The error returned by `StoreTradeHistory` when the engine fails inside
the update closure.  A failed `CreateBucketIfNotExists` (for an exchange or
a pair) is only logged (`log.Printf`) and the loop continues; the result of
`pairBk.Put` is discarded entirely; the closure's final `return err` reads
the still-nil function-level `err` (the loop-local `err`s shadow it), so
the closure never reports these failures and the call returns `nil`. -/
def StoreTradeHistoryReturnedError (createExchangeBucketErr : Option String)
    (createPairBucketErr : Option String) (putErr : Option String) :
    Option String :=
  let outerErr : Option String := none
  let _loggedOnly := [createExchangeBucketErr, createPairBucketErr]
  let _discarded := putErr
  let closureErr := outerErr
  closureErr

/-- The byte-range scan inside `GetTradeHistory` for one pair bucket: seek
the cursor to `min`, then accumulate values while the key is ≤ `max` in
byte order. -/
def scanRange (pairBk : PairBucket) (min max : List Nat) : List TradeHistory :=
  ((pairBk.dropWhile (fun e => bytesCompare e.1 min == Ordering.lt)).takeWhile
    (fun e => bytesCompare e.1 max != Ordering.gt)).map (fun e => e.2)

/-- `GetTradeHistory`: reject a window wider than 3 days (wrapping `uint64`
subtraction), otherwise scan every exchange bucket and every pair bucket
between the encoded bounds; the result snapshot is tagged with the capture
timestamp `now` (`common.GetTimestamp()`). -/
def GetTradeHistory (s : BoltState) (fromTime toTime : Nat) (now : String) :
    AllTradeHistory × Option String :=
  let result : AllTradeHistory := { Timestamp := now, Data := [] }
  if usub64 toTime fromTime > MAX_GET_TRADE_HISTORY then
    (result, some "Time range is too broad, it must be smaller or equal to 3 days (miliseconds)")
  else
    let min := uint64ToBytes fromTime
    let max := uint64ToBytes toTime
    ({ Timestamp := now,
       Data := s.tradeHistory.map (fun exData =>
         (exData.1, exData.2.map (fun pairData =>
           (pairData.1, scanRange pairData.2 min max)))) }, none)

/-- `GetLastIDTradeHistory`: ensure the exchange and pair buckets exist
(a mutating side effect of this read), move the pair cursor to its last
key, decode the record there if any, and return its external trade id —
the zero value's empty `ID` when the pair bucket is empty.  The returned
error is the (nil) pair-bucket creation error. -/
def GetLastIDTradeHistory (s : BoltState) (exchange pair : String) :
    BoltState × String × Option String :=
  let exchangeBk := (assocGet exchange s.tradeHistory).getD []
  let pairBk := (assocGet pair exchangeBk).getD ([] : PairBucket)
  let th := assocUpdate exchange []
    (fun exBk => assocUpdate pair ([] : PairBucket) (fun b => b) exBk)
    s.tradeHistory
  let s' := { s with tradeHistory := th }
  let history :=
    match pairBk.getLast? with
    | none => TradeHistory.zero
    | some e => e.2
  (s', history.ID, none)

/-- Well-formedness of one pair bucket, as established by the writers: keys
sorted, and every key is the 8-byte big-endian encoding of its record's
`uint64` timestamp. -/
def PairWF (pbk : PairBucket) : Prop :=
  BucketSorted pbk ∧
    ∀ e ∈ pbk, e.1 = uint64ToBytes e.2.Timestamp ∧ e.2.Timestamp < 2 ^ 64

/-- Well-formedness of the trade-history partition. -/
def TradeHistoryWF (s : BoltState) : Prop :=
  ∀ ex ∈ s.tradeHistory, ∀ p ∈ ex.2, PairWF p.2

theorem ordering_bne_gt_true {o : Ordering} :
    (o != Ordering.gt) = true ↔ o ≠ Ordering.gt := by
  cases o <;> decide

theorem ordering_bne_gt_false {o : Ordering} :
    (o != Ordering.gt) = false ↔ o = Ordering.gt := by
  cases o <;> decide

theorem ordering_beq_lt_true {o : Ordering} :
    (o == Ordering.lt) = true ↔ o = Ordering.lt := by
  cases o <;> decide

theorem ordering_beq_lt_false {o : Ordering} :
    (o == Ordering.lt) = false ↔ o ≠ Ordering.lt := by
  cases o <;> decide

theorem takeWhile_le_eq_filter (pbk : PairBucket) (hs : BucketSorted pbk)
    (henc : ∀ e ∈ pbk, e.1 = uint64ToBytes e.2.Timestamp ∧ e.2.Timestamp < 2 ^ 64)
    (t : Nat) (ht : t < 2 ^ 64) :
    pbk.takeWhile (fun e => bytesCompare e.1 (uint64ToBytes t) != Ordering.gt)
      = pbk.filter (fun e => decide (e.2.Timestamp ≤ t)) := by
  induction pbk with
  | nil => rfl
  | cons e rest ih =>
    simp only [BucketSorted, List.pairwise_cons] at hs
    obtain ⟨hfirst, hrest⟩ := hs
    obtain ⟨hkey, hbound⟩ := henc e (List.mem_cons_self e rest)
    have henc' : ∀ e' ∈ rest, e'.1 = uint64ToBytes e'.2.Timestamp ∧
        e'.2.Timestamp < 2 ^ 64 :=
      fun e' he' => henc e' (List.mem_cons_of_mem e he')
    by_cases hts : e.2.Timestamp ≤ t
    · have hcond : (bytesCompare e.1 (uint64ToBytes t) != Ordering.gt) = true := by
        rw [ordering_bne_gt_true, hkey]
        intro hgt
        rw [uint64ToBytes_gt_iff hbound ht] at hgt
        omega
      rw [List.takeWhile_cons, if_pos hcond,
        List.filter_cons_of_pos (by simpa using hts), ih hrest henc']
    · have hcond : (bytesCompare e.1 (uint64ToBytes t) != Ordering.gt) = false := by
        rw [ordering_bne_gt_false, hkey, uint64ToBytes_gt_iff hbound ht]
        omega
      rw [List.takeWhile_cons, if_neg (by simp [hcond]),
        List.filter_cons_of_neg (by simpa using hts)]
      rw [List.filter_eq_nil_iff.mpr ?_]
      intro e' he'
      obtain ⟨hkey', hbound'⟩ := henc' e' he'
      have hlt := hfirst e' he'
      rw [hkey, hkey', uint64ToBytes_lt_iff hbound hbound'] at hlt
      simp only [decide_eq_true_eq]
      omega

theorem scanRange_eq_filter (pbk : PairBucket) (hs : BucketSorted pbk)
    (henc : ∀ e ∈ pbk, e.1 = uint64ToBytes e.2.Timestamp ∧ e.2.Timestamp < 2 ^ 64)
    (f t : Nat) (hft : f ≤ t) (ht : t < 2 ^ 64) :
    scanRange pbk (uint64ToBytes f) (uint64ToBytes t)
      = (pbk.filter (fun e =>
          decide (f ≤ e.2.Timestamp) && decide (e.2.Timestamp ≤ t))).map
          (fun e => e.2) := by
  have hf : f < 2 ^ 64 := Nat.lt_of_le_of_lt hft ht
  induction pbk with
  | nil => rfl
  | cons e rest ih =>
    simp only [BucketSorted, List.pairwise_cons] at hs
    obtain ⟨hfirst, hrest⟩ := hs
    obtain ⟨hkey, hbound⟩ := henc e (List.mem_cons_self e rest)
    have henc' : ∀ e' ∈ rest, e'.1 = uint64ToBytes e'.2.Timestamp ∧
        e'.2.Timestamp < 2 ^ 64 :=
      fun e' he' => henc e' (List.mem_cons_of_mem e he')
    by_cases hts : e.2.Timestamp < f
    · have hcond : (bytesCompare e.1 (uint64ToBytes f) == Ordering.lt) = true := by
        rw [ordering_beq_lt_true, hkey, uint64ToBytes_lt_iff hbound hf]
        exact hts
      rw [scanRange, List.dropWhile_cons, if_pos hcond,
        List.filter_cons_of_neg (by simp; omega)]
      exact ih hrest henc'
    · have hcond : (bytesCompare e.1 (uint64ToBytes f) == Ordering.lt) = false := by
        rw [ordering_beq_lt_false, hkey]
        intro hlt
        rw [uint64ToBytes_lt_iff hbound hf] at hlt
        omega
      rw [scanRange, List.dropWhile_cons, if_neg (by simp [hcond])]
      have hsorted : BucketSorted (e :: rest) := by
        simp only [BucketSorted, List.pairwise_cons]
        exact ⟨hfirst, hrest⟩
      rw [takeWhile_le_eq_filter (e :: rest) hsorted henc t ht]
      have hge : ∀ e'' ∈ e :: rest, f ≤ e''.2.Timestamp := by
        intro e'' he''
        rcases List.mem_cons.mp he'' with h | h
        · rw [h]; omega
        · obtain ⟨hkey', hbound'⟩ := henc' e'' h
          have hlt := hfirst e'' h
          rw [hkey, hkey', uint64ToBytes_lt_iff hbound hbound'] at hlt
          omega
      have hfilter : (e :: rest).filter (fun e'' => decide (e''.2.Timestamp ≤ t))
          = (e :: rest).filter (fun e'' =>
              decide (f ≤ e''.2.Timestamp) && decide (e''.2.Timestamp ≤ t)) := by
        apply List.filter_congr
        intro e'' he''
        simp [hge e'' he'']
      rw [hfilter]

/-- **C1**: for every store state and every window `fromTime ≤ toTime` of at
most 3 days (ms), `GetTradeHistory` returns, for every exchange and pair in
the trade-history partition, exactly the stored records whose timestamp `t`
satisfies `fromTime ≤ t ≤ toTime` (both bounds inclusive), and no error;
moreover the 8-byte big-endian encoding makes byte-lexicographic key order
agree with numeric timestamp order, which the range scan relies on. -/
theorem GetTradeHistory_exact_range
    (s : BoltState) (fromTime toTime : Nat) (now : String)
    (hwf : TradeHistoryWF s) (hft : fromTime ≤ toTime) (ht : toTime < 2 ^ 64)
    (hrange : toTime - fromTime ≤ MAX_GET_TRADE_HISTORY) :
    GetTradeHistory s fromTime toTime now
      = ({ Timestamp := now,
           Data := s.tradeHistory.map (fun exData =>
             (exData.1, exData.2.map (fun pairData =>
               (pairData.1,
                 (pairData.2.filter (fun e =>
                   decide (fromTime ≤ e.2.Timestamp) &&
                     decide (e.2.Timestamp ≤ toTime))).map (fun e => e.2))))) },
         none)
      ∧ ∀ a b : Nat, a < 2 ^ 64 → b < 2 ^ 64 →
          (bytesCompare (uint64ToBytes a) (uint64ToBytes b) = Ordering.lt ↔ a < b) := by
  constructor
  · have hguard : ¬ usub64 toTime fromTime > MAX_GET_TRADE_HISTORY := by
      simp only [MAX_GET_TRADE_HISTORY] at hrange ⊢
      simp only [usub64]
      omega
    simp only [GetTradeHistory]
    rw [if_neg hguard]
    simp only [Prod.mk.injEq, AllTradeHistory.mk.injEq, true_and, and_true]
    apply List.map_congr_left
    intro exData hex
    simp only [Prod.mk.injEq, true_and]
    apply List.map_congr_left
    intro pairData hp
    simp only [Prod.mk.injEq, true_and]
    obtain ⟨hsort, henc⟩ := hwf exData hex pairData hp
    exact scanRange_eq_filter pairData.2 hsort henc fromTime toTime hft ht
  · intro a b ha hb
    exact uint64ToBytes_lt_iff ha hb

/-- Sample records and store used to witness the trade-history theorems. -/
def sampleTrade1 : TradeHistory := { ID := "t1", Timestamp := 100, Fields := "p1" }

def sampleTrade2 : TradeHistory := { ID := "t2", Timestamp := 200, Fields := "p2" }

def sampleStore : BoltState :=
  { intermediateTx := [], pendingTx := [],
    tradeHistory := [("binance",
      [("ETH-KNC", [(uint64ToBytes 100, sampleTrade1),
                    (uint64ToBytes 200, sampleTrade2)])])] }

/-- Witness for **C1** at a concrete store: the window `[100, 150]` keeps
exactly the record with timestamp 100. -/
theorem GetTradeHistory_exact_range_witness :
    TradeHistoryWF sampleStore ∧
    GetTradeHistory sampleStore 100 150 "capture"
      = ({ Timestamp := "capture",
           Data := [("binance", [("ETH-KNC", [sampleTrade1])])] }, none) := by
  have hwf : TradeHistoryWF sampleStore := by
    unfold TradeHistoryWF PairWF BucketSorted sampleStore
    decide
  refine ⟨hwf, ?_⟩
  have h := (GetTradeHistory_exact_range sampleStore 100 150 "capture" hwf
    (by norm_num) (by norm_num) (by decide)).1
  rw [h]
  rfl

/-- **C2**: a window wider than 3 days (ms) is rejected: `GetTradeHistory`
returns an error and an empty data mapping (no partial result). -/
theorem GetTradeHistory_rejects_broad_range
    (s : BoltState) (fromTime toTime : Nat) (now : String)
    (ht : toTime < 2 ^ 64)
    (hrange : toTime - fromTime > MAX_GET_TRADE_HISTORY) :
    GetTradeHistory s fromTime toTime now
      = ({ Timestamp := now, Data := [] },
         some "Time range is too broad, it must be smaller or equal to 3 days (miliseconds)") := by
  have hguard : usub64 toTime fromTime > MAX_GET_TRADE_HISTORY := by
    simp only [MAX_GET_TRADE_HISTORY] at hrange ⊢
    simp only [usub64]
    omega
  simp only [GetTradeHistory]
  rw [if_pos hguard]

/-- Witness for **C2**: a window one millisecond over three days on the
sample store is rejected with no data. -/
theorem GetTradeHistory_rejects_broad_range_witness :
    GetTradeHistory sampleStore 0 259200001 "capture"
      = ({ Timestamp := "capture", Data := [] },
         some "Time range is too broad, it must be smaller or equal to 3 days (miliseconds)") :=
  GetTradeHistory_rejects_broad_range sampleStore 0 259200001 "capture"
    (by norm_num) (by decide)

/-- **C10**: an inverted range (`fromTime > toTime`, with the gap below
`2^64 - 3 days`) makes the wrapping `uint64` subtraction `toTime - fromTime`
exceed the 3-day bound, so `GetTradeHistory` rejects it with the
range-too-broad error and no records rather than scanning. -/
theorem GetTradeHistory_rejects_inverted_range
    (s : BoltState) (fromTime toTime : Nat) (now : String)
    (_hf : fromTime < 2 ^ 64) (hinv : toTime < fromTime)
    (hgap : fromTime - toTime < 2 ^ 64 - MAX_GET_TRADE_HISTORY) :
    GetTradeHistory s fromTime toTime now
      = ({ Timestamp := now, Data := [] },
         some "Time range is too broad, it must be smaller or equal to 3 days (miliseconds)") := by
  have hguard : usub64 toTime fromTime > MAX_GET_TRADE_HISTORY := by
    simp only [MAX_GET_TRADE_HISTORY] at hgap ⊢
    simp only [usub64]
    omega
  simp only [GetTradeHistory]
  rw [if_pos hguard]

/-- Witness for **C10**: `fromTime = 10 > toTime = 5` is rejected. -/
theorem GetTradeHistory_rejects_inverted_range_witness :
    GetTradeHistory sampleStore 10 5 "capture"
      = ({ Timestamp := "capture", Data := [] },
         some "Time range is too broad, it must be smaller or equal to 3 days (miliseconds)") :=
  GetTradeHistory_rejects_inverted_range sampleStore 10 5 "capture"
    (by norm_num) (by norm_num) (by decide)

/-- **C3**: a stored intermediate transaction is found again by an exact
seek on its binary id, and an id whose binary encoding is not a key of the
confirmed partition yields the recoverable "not found — try later" error
(the key at or after the seek point is compared for exact equality). -/
theorem StoreIntermediateTx_GetIntermedatorTx
    (s : BoltState) (id : ActivityID) (tx : TXEntry)
    (hs : BucketSorted s.intermediateTx) :
    GetIntermedatorTx (StoreIntermediateTx s id tx) id = Except.ok tx
    ∧ ∀ id' : ActivityID,
        (∀ e ∈ s.intermediateTx, e.1 ≠ id'.ToBytes) →
        GetIntermedatorTx s id' = Except.error
          "Can not find 2nd transaction tx for the deposit, please try later" := by
  constructor
  · simp only [GetIntermedatorTx, StoreIntermediateTx]
    obtain ⟨rest, hr⟩ := bucketPut_seek (k := id.ToBytes) (v := tx) hs
    rw [hr]
    simp [isTheSame_iff]
  · intro id' hnotin
    simp only [GetIntermedatorTx]
    cases hdrop : s.intermediateTx.dropWhile
        (fun e => bytesCompare e.1 id'.ToBytes == Ordering.lt) with
    | nil => rfl
    | cons e rest' =>
      have hsub : (e :: rest') ⊆ s.intermediateTx := by
        rw [← hdrop]
        exact (List.dropWhile_sublist _).subset
      have hmem : e ∈ s.intermediateTx := hsub (List.mem_cons_self e rest')
      have hfalse : isTheSame e.1 id'.ToBytes = false := by
        rw [Bool.eq_false_iff]
        intro htrue
        rw [isTheSame_iff] at htrue
        exact hnotin e hmem htrue
      simp [hfalse]

/-- Sample activity ids and transaction entries for the witnesses. -/
def sampleId1 : ActivityID := { Timepoint := 1, EID := "activity-1" }

def sampleId2 : ActivityID := { Timepoint := 2, EID := "activity-2" }

def sampleTx1 : TXEntry := { Hash := "0xaaa", Status := "mined", Timestamp := "1" }

def sampleTx2 : TXEntry := { Hash := "0xbbb", Status := "pending", Timestamp := "2" }

/-- Witness for **C3**: storing then reading an intermediate tx on a fresh
store returns it, and reading an id absent from the fresh store fails with
the "try later" error. -/
theorem StoreIntermediateTx_GetIntermedatorTx_witness :
    GetIntermedatorTx (StoreIntermediateTx NewBoltStorage sampleId1 sampleTx1)
      sampleId1 = Except.ok sampleTx1
    ∧ GetIntermedatorTx NewBoltStorage sampleId2 = Except.error
        "Can not find 2nd transaction tx for the deposit, please try later" := by
  have hs : BucketSorted NewBoltStorage.intermediateTx := by
    unfold BucketSorted NewBoltStorage
    decide
  refine ⟨(StoreIntermediateTx_GetIntermedatorTx NewBoltStorage sampleId1
    sampleTx1 hs).1, ?_⟩
  exact (StoreIntermediateTx_GetIntermedatorTx NewBoltStorage sampleId1
    sampleTx1 hs).2 sampleId2 (by simp [NewBoltStorage])

theorem assocGet_eq_none {κ α : Type} [DecidableEq κ] {k : κ}
    {l : List (κ × α)} (h : ∀ e ∈ l, e.1 ≠ k) : assocGet k l = none := by
  induction l with
  | nil => rfl
  | cons e rest ih =>
    simp only [assocGet, if_neg (h e (List.mem_cons_self e rest))]
    exact ih fun e' he' => h e' (List.mem_cons_of_mem e he')

theorem pendingPut_mapGet_self (id : ActivityID) (v : TXEntry)
    (l : List (ActivityID × TXEntry)) :
    mapGet (pendingPut id v l) id = some v := by
  induction l with
  | nil => simp [pendingPut, mapGet, assocGet]
  | cons e rest ih =>
    by_cases h : e.1 = id
    · simp [pendingPut, mapGet, assocGet, h]
    · simp only [pendingPut, if_neg h]
      simp only [mapGet, assocGet, if_neg h] at ih ⊢
      exact ih

theorem pendingPut_mapGet_other {id id' : ActivityID} (hne : id' ≠ id)
    (v : TXEntry) (l : List (ActivityID × TXEntry)) :
    mapGet (pendingPut id v l) id' = mapGet l id' := by
  induction l with
  | nil =>
    simp only [pendingPut, mapGet, assocGet,
      if_neg (fun h : id = id' => hne h.symm)]
  | cons e rest ih =>
    by_cases h : e.1 = id
    · simp [pendingPut, mapGet, assocGet, h,
        if_neg (fun hh : id = id' => hne hh.symm)]
    · simp only [pendingPut, if_neg h]
      by_cases h2 : e.1 = id'
      · simp [mapGet, assocGet, h2]
      · simp only [mapGet, assocGet, if_neg h2] at ih ⊢
        exact ih

theorem pendingDelete_mapGet_other {id id' : ActivityID} (hne : id' ≠ id)
    (l : List (ActivityID × TXEntry)) :
    mapGet (pendingDelete id l) id' = mapGet l id' := by
  induction l with
  | nil => simp [pendingDelete]
  | cons e rest ih =>
    by_cases h : e.1 = id
    · simp only [pendingDelete, if_pos h]
      have hne2 : ¬ e.1 = id' := by rw [h]; exact fun hh => hne hh.symm
      simp [mapGet, assocGet, if_neg hne2]
    · simp only [pendingDelete, if_neg h]
      by_cases h2 : e.1 = id'
      · simp [mapGet, assocGet, h2]
      · simp only [mapGet, assocGet, if_neg h2] at ih ⊢
        exact ih

theorem pendingDelete_put_self (id : ActivityID) (v : TXEntry)
    {l : List (ActivityID × TXEntry)} (hnodup : (l.map Prod.fst).Nodup) :
    mapGet (pendingDelete id (pendingPut id v l)) id = none := by
  induction l with
  | nil => simp [pendingPut, pendingDelete, mapGet, assocGet]
  | cons e rest ih =>
    simp only [List.map_cons, List.nodup_cons] at hnodup
    obtain ⟨hhead, hrest⟩ := hnodup
    by_cases h : e.1 = id
    · simp only [pendingPut, if_pos h]
      have hdel : pendingDelete id ((id, v) :: rest) = rest := by
        simp [pendingDelete]
      rw [hdel]
      simp only [mapGet]
      apply assocGet_eq_none
      intro e' he' hk
      rw [h] at hhead
      exact hhead (by rw [← hk]; exact List.mem_map_of_mem Prod.fst he')
    · simp only [pendingPut, if_neg h, pendingDelete, if_neg h]
      simp only [mapGet, assocGet, if_neg h]
      exact ih hrest

/-- **C4**: after `StorePendingIntermediateTx(id, tx)` the pending map
contains `id → tx`; a subsequent `RemovePendingIntermediateTx(id)` removes
it, leaving every other id's binding untouched. -/
theorem StorePending_GetPending_RemovePending
    (s : BoltState) (id : ActivityID) (tx : TXEntry)
    (hnodup : (s.pendingTx.map Prod.fst).Nodup) :
    mapGet (GetPendingIntermediateTXs (StorePendingIntermediateTx s id tx)) id
      = some tx
    ∧ mapGet (GetPendingIntermediateTXs
        ((RemovePendingIntermediateTx (StorePendingIntermediateTx s id tx) id
          none).1)) id = none
    ∧ ∀ id' : ActivityID, id' ≠ id →
        mapGet (GetPendingIntermediateTXs
          ((RemovePendingIntermediateTx (StorePendingIntermediateTx s id tx) id
            none).1)) id'
          = mapGet (GetPendingIntermediateTXs s) id' := by
  refine ⟨?_, ?_, ?_⟩
  · simp only [GetPendingIntermediateTXs, StorePendingIntermediateTx]
    exact pendingPut_mapGet_self id tx s.pendingTx
  · simp only [GetPendingIntermediateTXs, StorePendingIntermediateTx,
      RemovePendingIntermediateTx]
    exact pendingDelete_put_self id tx hnodup
  · intro id' hne
    simp only [GetPendingIntermediateTXs, StorePendingIntermediateTx,
      RemovePendingIntermediateTx]
    rw [pendingDelete_mapGet_other hne, pendingPut_mapGet_other hne]

/-- Witness for **C4** on a store already holding one other pending entry. -/
theorem StorePending_GetPending_RemovePending_witness :
    mapGet (GetPendingIntermediateTXs (StorePendingIntermediateTx
      { NewBoltStorage with pendingTx := [(sampleId1, sampleTx1)] }
      sampleId2 sampleTx2)) sampleId2 = some sampleTx2
    ∧ mapGet (GetPendingIntermediateTXs
        ((RemovePendingIntermediateTx (StorePendingIntermediateTx
          { NewBoltStorage with pendingTx := [(sampleId1, sampleTx1)] }
          sampleId2 sampleTx2) sampleId2 none).1)) sampleId2 = none
    ∧ mapGet (GetPendingIntermediateTXs
        ((RemovePendingIntermediateTx (StorePendingIntermediateTx
          { NewBoltStorage with pendingTx := [(sampleId1, sampleTx1)] }
          sampleId2 sampleTx2) sampleId2 none).1)) sampleId1
        = mapGet (GetPendingIntermediateTXs
          { NewBoltStorage with pendingTx := [(sampleId1, sampleTx1)] })
          sampleId1 := by
  have h := StorePending_GetPending_RemovePending
    { NewBoltStorage with pendingTx := [(sampleId1, sampleTx1)] }
    sampleId2 sampleTx2 (by decide)
  exact ⟨h.1, h.2.1, h.2.2 sampleId1 (by decide)⟩

/-- The contents of one pair bucket of the trade-history partition. -/
def pairBucketOf (s : BoltState) (exchange pair : String) : PairBucket :=
  (assocGet pair ((assocGet exchange s.tradeHistory).getD [])).getD []

theorem pairBucketOf_store (s : BoltState) (exchange pair : String)
    (records : List TradeHistory) (now : String) :
    pairBucketOf (StoreTradeHistory s
        { Timestamp := now, Data := [(exchange, [(pair, records)])] })
        exchange pair
      = records.foldl
          (fun bk history => bucketPut (uint64ToBytes history.Timestamp) history bk)
          (pairBucketOf s exchange pair) := by
  simp only [StoreTradeHistory, pairBucketOf, List.foldl]
  rw [assocGet_update_self]
  simp only [Option.getD_some]
  rw [assocGet_update_self]
  simp only [Option.getD_some]

/-- **C5**: storing two records with the same (exchange, pair, timestamp)
key — in one call or in successive calls — leaves exactly one record under
that key, equal to the last one written (last-write-wins upsert, no
duplicated key). -/
theorem StoreTradeHistory_last_write_wins
    (s : BoltState) (exchange pair : String) (h1 h2 : TradeHistory)
    (now1 now2 : String)
    (hs : BucketSorted (pairBucketOf s exchange pair))
    (hts : h1.Timestamp = h2.Timestamp) :
    (pairBucketOf (StoreTradeHistory s
        { Timestamp := now1, Data := [(exchange, [(pair, [h1, h2])])] })
        exchange pair).filter
      (fun e => isTheSame e.1 (uint64ToBytes h2.Timestamp))
      = [(uint64ToBytes h2.Timestamp, h2)]
    ∧ (pairBucketOf (StoreTradeHistory (StoreTradeHistory s
        { Timestamp := now1, Data := [(exchange, [(pair, [h1])])] })
        { Timestamp := now2, Data := [(exchange, [(pair, [h2])])] })
        exchange pair).filter
      (fun e => isTheSame e.1 (uint64ToBytes h2.Timestamp))
      = [(uint64ToBytes h2.Timestamp, h2)] := by
  have hkey : uint64ToBytes h1.Timestamp = uint64ToBytes h2.Timestamp := by
    rw [hts]
  constructor
  · rw [pairBucketOf_store]
    simp only [List.foldl]
    rw [hkey]
    exact bucketPut_filter (bucketPut_sorted hs)
  · rw [pairBucketOf_store, pairBucketOf_store]
    simp only [List.foldl]
    rw [hkey]
    exact bucketPut_filter (bucketPut_sorted hs)

/-- Witness for **C5** on a fresh store: overwriting timestamp 100. -/
theorem StoreTradeHistory_last_write_wins_witness :
    (pairBucketOf (StoreTradeHistory NewBoltStorage
        { Timestamp := "c1", Data := [("binance", [("ETH-KNC",
            [sampleTrade1, { ID := "t1b", Timestamp := 100, Fields := "q" }])])] })
        "binance" "ETH-KNC").filter
      (fun e => isTheSame e.1 (uint64ToBytes 100))
      = [(uint64ToBytes 100, { ID := "t1b", Timestamp := 100, Fields := "q" })]
    ∧ (pairBucketOf (StoreTradeHistory (StoreTradeHistory NewBoltStorage
        { Timestamp := "c1", Data := [("binance", [("ETH-KNC", [sampleTrade1])])] })
        { Timestamp := "c2", Data := [("binance", [("ETH-KNC",
            [{ ID := "t1b", Timestamp := 100, Fields := "q" }])])] })
        "binance" "ETH-KNC").filter
      (fun e => isTheSame e.1 (uint64ToBytes 100))
      = [(uint64ToBytes 100, { ID := "t1b", Timestamp := 100, Fields := "q" })] := by
  have h := StoreTradeHistory_last_write_wins NewBoltStorage "binance" "ETH-KNC"
    sampleTrade1 { ID := "t1b", Timestamp := 100, Fields := "q" } "c1" "c2"
    (by unfold BucketSorted pairBucketOf NewBoltStorage; decide) (by decide)
  exact h

/-- In a sorted, timestamp-keyed bucket, the entry at the cursor's `Last`
position carries the maximum timestamp. -/
theorem pairwise_getLast_max {l : PairBucket} (hpw : BucketSorted l)
    (henc : ∀ e ∈ l, e.1 = uint64ToBytes e.2.Timestamp ∧ e.2.Timestamp < 2 ^ 64)
    (hne : l ≠ []) :
    ∃ e, l.getLast? = some e ∧ e ∈ l
      ∧ ∀ e' ∈ l, e'.2.Timestamp ≤ e.2.Timestamp := by
  induction l with
  | nil => exact absurd rfl hne
  | cons x rest ih =>
    simp only [BucketSorted, List.pairwise_cons] at hpw
    obtain ⟨hfirst, hrest⟩ := hpw
    cases rest with
    | nil =>
      refine ⟨x, rfl, List.mem_cons_self x [], ?_⟩
      intro e' he'
      rcases List.mem_cons.mp he' with h | h
      · rw [h]
      · exact absurd h (List.not_mem_nil e')
    | cons y ys =>
      obtain ⟨e, hlast, hmem, hmax⟩ := ih hrest
        (fun e' he' => henc e' (List.mem_cons_of_mem x he'))
        (List.cons_ne_nil y ys)
      refine ⟨e, ?_, List.mem_cons_of_mem x hmem, ?_⟩
      · rw [List.getLast?_cons_cons]
        exact hlast
      · intro e' he'
        rcases List.mem_cons.mp he' with h | h
        · obtain ⟨hkeyx, hboundx⟩ := henc x (List.mem_cons_self x (y :: ys))
          obtain ⟨hkeye, hbounde⟩ := henc e
            (List.mem_cons_of_mem x hmem)
          have hlt := hfirst e hmem
          rw [hkeyx, hkeye, uint64ToBytes_lt_iff hboundx hbounde] at hlt
          rw [h]
          omega
        · exact hmax e' h

/-- **C6**: `GetLastIDTradeHistory` on a pair bucket holding at least one
record returns the external trade identifier of the record with the maximum
timestamp; on an empty pair bucket it returns the empty string, in both
cases with no error. -/
theorem GetLastIDTradeHistory_max (s : BoltState) (exchange pair : String)
    (hwfp : PairWF (pairBucketOf s exchange pair)) :
    (pairBucketOf s exchange pair = [] →
      (GetLastIDTradeHistory s exchange pair).2.1 = ""
        ∧ (GetLastIDTradeHistory s exchange pair).2.2 = none)
    ∧ (pairBucketOf s exchange pair ≠ [] →
        ∃ e ∈ pairBucketOf s exchange pair,
          (GetLastIDTradeHistory s exchange pair).2.1 = e.2.ID
          ∧ (∀ e' ∈ pairBucketOf s exchange pair,
              e'.2.Timestamp ≤ e.2.Timestamp)
          ∧ (GetLastIDTradeHistory s exchange pair).2.2 = none) := by
  obtain ⟨hsort, henc⟩ := hwfp
  have hfst : (GetLastIDTradeHistory s exchange pair).2.1
      = (match (pairBucketOf s exchange pair).getLast? with
         | none => TradeHistory.zero
         | some e => e.2).ID := rfl
  have hsnd : (GetLastIDTradeHistory s exchange pair).2.2 = none := rfl
  constructor
  · intro hempty
    refine ⟨?_, hsnd⟩
    rw [hfst, hempty]
    rfl
  · intro hne
    obtain ⟨e, hlast, hmem, hmax⟩ := pairwise_getLast_max hsort henc hne
    refine ⟨e, hmem, ?_, hmax, hsnd⟩
    rw [hfst, hlast]

/-- Witness for **C6**: on the sample store the pair with two records
answers the id of the timestamp-200 record, and an untouched pair answers
the empty string, both without error. -/
theorem GetLastIDTradeHistory_max_witness :
    (GetLastIDTradeHistory sampleStore "binance" "ETH-KNC").2.1 = "t2"
    ∧ (GetLastIDTradeHistory sampleStore "binance" "ETH-KNC").2.2 = none
    ∧ (GetLastIDTradeHistory sampleStore "huobi" "ETH-OMG").2.1 = ""
    ∧ (GetLastIDTradeHistory sampleStore "huobi" "ETH-OMG").2.2 = none := by
  have hwf1 : PairWF (pairBucketOf sampleStore "binance" "ETH-KNC") := by
    unfold PairWF BucketSorted pairBucketOf sampleStore
    decide
  have hwf2 : PairWF (pairBucketOf sampleStore "huobi" "ETH-OMG") := by
    unfold PairWF BucketSorted pairBucketOf sampleStore
    decide
  have h1 := (GetLastIDTradeHistory_max sampleStore "binance" "ETH-KNC" hwf1).2
    (by decide)
  have h2 := (GetLastIDTradeHistory_max sampleStore "huobi" "ETH-OMG" hwf2).1
    (by decide)
  obtain ⟨e, hmem, hid, hmax, herr⟩ := h1
  have he : e = (uint64ToBytes 200, sampleTrade2) := by
    rcases List.mem_cons.mp hmem with h | h
    · have := hmax (uint64ToBytes 200, sampleTrade2) (by decide)
      rw [h] at this ⊢
      exact absurd this (by decide)
    · rcases List.mem_cons.mp h with h' | h'
      · exact h'
      · exact absurd h' (List.not_mem_nil e)
  rw [he] at hid
  exact ⟨hid, herr, h2.1, h2.2⟩

/-- **C9** (code bug): engine failures are not propagated.  A failing
delete inside `RemovePendingIntermediateTx` still yields a `nil` error (the
closure's `idJson, err := json.Marshal(id)` shadows the function-level
`err`, and `db.Update`'s result is discarded), and `StoreTradeHistory`'s
closure only logs bucket-creation failures and discards `Put` results, so
its returned error stays `nil` as well. -/
theorem Remove_and_StoreTradeHistory_swallow_engine_errors :
    (RemovePendingIntermediateTx NewBoltStorage sampleId1
      (some "disk write failure")).2 = none
    ∧ StoreTradeHistoryReturnedError (some "create exchange bucket failed")
        (some "create pair bucket failed") (some "put failed") = none := by
  constructor <;> rfl

/-- Outcome of a bootstrap run: a built registry (the list of registered
exchange ids), a recoverable error returned to `NewExchangePool`'s caller,
or fatal process termination (`log.Panic` / `log.Panicf`). -/
inductive BootOutcome where
  | ok (registry : List String)
  | err (e : String)
  | fatal (msg : String)
deriving DecidableEq

/-- Modelled from the spec: the collaborators `NewExchangePool` drives that
are outside the excerpted core — each adapter constructor and each
per-exchange ledger open is summarised by its result (success or a typed
error), `addressConfig.Exchanges[name]` by the per-exchange (token,
address) assignment list, and `setting.GetInternalTokenByID` by the token
resolver's result. -/
structure BootEnv where
  stableEx : Except String Unit
  bittrexStorage : Except String Unit
  bittrex : Except String Unit
  binanceStorage : Except String Unit
  binance : Except String Unit
  huobiStorage : Except String Unit
  huobi : Except String Unit
  assignments : String → List (String × String)
  getInternalTokenByID : String → Except String Unit

/-- `AsyncUpdateDepositAddress`: resolve the token id; on failure terminate
the process (`log.Panicf`, returned here as `some` fatal message); on
success push the deposit address (result not surfaced). -/
def AsyncUpdateDepositAddress (env : BootEnv) (tokenID _addr : String) :
    Option String :=
  match env.getInternalTokenByID tokenID with
  | Except.error e =>
      some ("ERROR: Can not get internal token " ++ tokenID ++ ". Error: " ++ e)
  | Except.ok _ => none

/-- The provisioning fan-out/join for one exchange: every configured
assignment runs `AsyncUpdateDepositAddress`; if any task panics the process
dies (the first fatal message is reported). -/
def provisionFatal (env : BootEnv) (name : String) : Option String :=
  (env.assignments name).findSome? (fun a => AsyncUpdateDepositAddress env a.1 a.2)

/-- One arm of `NewExchangePool`'s `switch exparam`: an unrecognized name
falls through silently; a recognized one opens its ledger (fatal on
failure), constructs its adapter (recoverable error on failure), runs
provisioning (fatal on token-resolution failure) and registers the
adapter's id. -/
def bootStep (env : BootEnv) (acc : List String) (exparam : String) :
    BootOutcome :=
  if exparam = "stable_exchange" then
    match env.stableEx with
    | Except.error e => BootOutcome.err e
    | Except.ok _ => BootOutcome.ok (acc ++ ["stable_exchange"])
  else if exparam = "bittrex" then
    match env.bittrexStorage with
    | Except.error e => BootOutcome.fatal e
    | Except.ok _ =>
      match env.bittrex with
      | Except.error e => BootOutcome.err e
      | Except.ok _ =>
        match provisionFatal env "bittrex" with
        | some msg => BootOutcome.fatal msg
        | none => BootOutcome.ok (acc ++ ["bittrex"])
  else if exparam = "binance" then
    match env.binanceStorage with
    | Except.error e => BootOutcome.fatal e
    | Except.ok _ =>
      match env.binance with
      | Except.error e => BootOutcome.err e
      | Except.ok _ =>
        match provisionFatal env "binance" with
        | some msg => BootOutcome.fatal msg
        | none => BootOutcome.ok (acc ++ ["binance"])
  else if exparam = "huobi" then
    match env.huobiStorage with
    | Except.error e => BootOutcome.fatal e
    | Except.ok _ =>
      match env.huobi with
      | Except.error e => BootOutcome.err e
      | Except.ok _ =>
        match provisionFatal env "huobi" with
        | some msg => BootOutcome.fatal msg
        | none => BootOutcome.ok (acc ++ ["huobi"])
  else BootOutcome.ok acc

/-- The loop body of `NewExchangePool`: once a recoverable error or a fatal
abort occurs the remaining names are not processed. -/
def bootFold (env : BootEnv) (st : BootOutcome) (exparam : String) :
    BootOutcome :=
  match st with
  | BootOutcome.ok acc => bootStep env acc exparam
  | other => other

/-- `NewExchangePool`: iterate the comma-split `KYBER_EXCHANGES` name list,
dispatching each name through the `switch`. -/
def NewExchangePool (env : BootEnv) (exparams : List String) : BootOutcome :=
  exparams.foldl (bootFold env) (BootOutcome.ok [])

/-- The four names the `switch` recognizes. -/
def isRecognizedExchange (name : String) : Bool :=
  name = "stable_exchange" || name = "bittrex" || name = "binance" ||
    name = "huobi"

theorem bootStep_unrecognized (env : BootEnv) (acc : List String)
    {exparam : String} (h : isRecognizedExchange exparam = false) :
    bootStep env acc exparam = BootOutcome.ok acc := by
  simp only [isRecognizedExchange, Bool.or_eq_false_iff, decide_eq_false_iff_not]
    at h
  obtain ⟨⟨⟨h1, h2⟩, h3⟩, h4⟩ := h
  rw [bootStep, if_neg h1, if_neg h2, if_neg h3, if_neg h4]

theorem findSome?_isSome_of_mem {α β : Type} {f : α → Option β}
    {l : List α} {a : α} (ha : a ∈ l) {b : β} (hf : f a = some b) :
    ∃ m, l.findSome? f = some m := by
  induction l with
  | nil => cases ha
  | cons x rest ih =>
    rw [List.findSome?_cons]
    cases hfx : f x with
    | some m => exact ⟨m, rfl⟩
    | none =>
      rcases List.mem_cons.mp ha with h | h
      · rw [h] at hf
        rw [hfx] at hf
        cases hf
      · exact ih h

/-- **C7**: the bootstrap skips every unrecognized exchange name silently —
the run over any requested list equals the run over its recognized
sublist — and, concretely, requesting `["binance", "unknown_exchange"]`
(with binance's collaborators healthy) yields a registry with exactly the
binance adapter and no error. -/
theorem NewExchangePool_skips_unknown_names (env : BootEnv) :
    (∀ exparams : List String,
      NewExchangePool env exparams
        = NewExchangePool env (exparams.filter isRecognizedExchange))
    ∧ (env.binanceStorage = Except.ok () → env.binance = Except.ok () →
        provisionFatal env "binance" = none →
        NewExchangePool env ["binance", "unknown_exchange"]
          = BootOutcome.ok ["binance"]) := by
  constructor
  · have hgen : ∀ (exparams : List String) (st : BootOutcome),
        exparams.foldl (bootFold env) st
          = (exparams.filter isRecognizedExchange).foldl (bootFold env) st := by
      intro exparams
      induction exparams with
      | nil => intro st; rfl
      | cons x rest ih =>
        intro st
        cases hx : isRecognizedExchange x with
        | true =>
          rw [List.filter_cons_of_pos hx, List.foldl_cons, List.foldl_cons, ih]
        | false =>
          rw [List.filter_cons_of_neg (by simp [hx]), List.foldl_cons]
          have hstep : bootFold env st x = st := by
            cases st with
            | ok acc => exact bootStep_unrecognized env acc hx
            | err e => rfl
            | fatal msg => rfl
          rw [hstep, ih]
    intro exparams
    exact hgen exparams (BootOutcome.ok [])
  · intro hstorage hbin hprov
    simp [NewExchangePool, bootFold, bootStep, hstorage, hbin, hprov]

/-- A bootstrap environment in which every collaborator succeeds and no
deposit addresses are configured. -/
def okEnv : BootEnv :=
  { stableEx := Except.ok (), bittrexStorage := Except.ok (),
    bittrex := Except.ok (), binanceStorage := Except.ok (),
    binance := Except.ok (), huobiStorage := Except.ok (),
    huobi := Except.ok (), assignments := fun _ => [],
    getInternalTokenByID := fun _ => Except.ok () }

/-- Witness for **C7**: the healthy environment run on
`["binance", "unknown_exchange"]`, and the filter identity on that list. -/
theorem NewExchangePool_skips_unknown_names_witness :
    NewExchangePool okEnv ["binance", "unknown_exchange"]
      = BootOutcome.ok ["binance"]
    ∧ NewExchangePool okEnv ["binance", "unknown_exchange"]
      = NewExchangePool okEnv
          (["binance", "unknown_exchange"].filter isRecognizedExchange) := by
  constructor
  · exact (NewExchangePool_skips_unknown_names okEnv).2 rfl rfl rfl
  · exact (NewExchangePool_skips_unknown_names okEnv).1
      ["binance", "unknown_exchange"]

/-- **C8**: failure severity in bootstrap is asymmetric.  A ledger-file
open failure is fatal (the process terminates, no partial registry), a
token-resolution failure during deposit provisioning is fatal, and an
adapter-constructor failure is recoverable: `NewExchangePool` returns that
error to its caller. -/
theorem NewExchangePool_failure_severity (env : BootEnv) :
    (∀ e, env.bittrexStorage = Except.error e →
      NewExchangePool env ["bittrex"] = BootOutcome.fatal e)
    ∧ (∀ e, env.binanceStorage = Except.error e →
        NewExchangePool env ["binance"] = BootOutcome.fatal e)
    ∧ (∀ e, env.huobiStorage = Except.error e →
        NewExchangePool env ["huobi"] = BootOutcome.fatal e)
    ∧ (∀ tokenID addr e, (tokenID, addr) ∈ env.assignments "bittrex" →
        env.getInternalTokenByID tokenID = Except.error e →
        env.bittrexStorage = Except.ok () → env.bittrex = Except.ok () →
        ∃ msg, NewExchangePool env ["bittrex"] = BootOutcome.fatal msg)
    ∧ (∀ tokenID addr e, (tokenID, addr) ∈ env.assignments "binance" →
        env.getInternalTokenByID tokenID = Except.error e →
        env.binanceStorage = Except.ok () → env.binance = Except.ok () →
        ∃ msg, NewExchangePool env ["binance"] = BootOutcome.fatal msg)
    ∧ (∀ tokenID addr e, (tokenID, addr) ∈ env.assignments "huobi" →
        env.getInternalTokenByID tokenID = Except.error e →
        env.huobiStorage = Except.ok () → env.huobi = Except.ok () →
        ∃ msg, NewExchangePool env ["huobi"] = BootOutcome.fatal msg)
    ∧ (∀ e, env.stableEx = Except.error e →
        NewExchangePool env ["stable_exchange"] = BootOutcome.err e)
    ∧ (∀ e, env.bittrexStorage = Except.ok () →
        env.bittrex = Except.error e →
        NewExchangePool env ["bittrex"] = BootOutcome.err e)
    ∧ (∀ e, env.binanceStorage = Except.ok () →
        env.binance = Except.error e →
        NewExchangePool env ["binance"] = BootOutcome.err e)
    ∧ (∀ e, env.huobiStorage = Except.ok () →
        env.huobi = Except.error e →
        NewExchangePool env ["huobi"] = BootOutcome.err e) := by
  refine ⟨?_, ?_, ?_, ?_, ?_, ?_, ?_, ?_, ?_, ?_⟩
  · intro e h
    simp [NewExchangePool, bootFold, bootStep, h]
  · intro e h
    simp [NewExchangePool, bootFold, bootStep, h]
  · intro e h
    simp [NewExchangePool, bootFold, bootStep, h]
  · intro tokenID addr e hmem hres hst hctor
    have hasync : (fun a : String × String =>
        AsyncUpdateDepositAddress env a.1 a.2) (tokenID, addr)
        = some ("ERROR: Can not get internal token " ++ tokenID ++ ". Error: " ++ e) := by
      simp [AsyncUpdateDepositAddress, hres]
    obtain ⟨msg, hprov⟩ := findSome?_isSome_of_mem
      (f := fun a : String × String => AsyncUpdateDepositAddress env a.1 a.2)
      hmem hasync
    refine ⟨msg, ?_⟩
    simp [NewExchangePool, bootFold, bootStep, provisionFatal, hst, hctor, hprov]
  · intro tokenID addr e hmem hres hst hctor
    have hasync : (fun a : String × String =>
        AsyncUpdateDepositAddress env a.1 a.2) (tokenID, addr)
        = some ("ERROR: Can not get internal token " ++ tokenID ++ ". Error: " ++ e) := by
      simp [AsyncUpdateDepositAddress, hres]
    obtain ⟨msg, hprov⟩ := findSome?_isSome_of_mem
      (f := fun a : String × String => AsyncUpdateDepositAddress env a.1 a.2)
      hmem hasync
    refine ⟨msg, ?_⟩
    simp [NewExchangePool, bootFold, bootStep, provisionFatal, hst, hctor, hprov]
  · intro tokenID addr e hmem hres hst hctor
    have hasync : (fun a : String × String =>
        AsyncUpdateDepositAddress env a.1 a.2) (tokenID, addr)
        = some ("ERROR: Can not get internal token " ++ tokenID ++ ". Error: " ++ e) := by
      simp [AsyncUpdateDepositAddress, hres]
    obtain ⟨msg, hprov⟩ := findSome?_isSome_of_mem
      (f := fun a : String × String => AsyncUpdateDepositAddress env a.1 a.2)
      hmem hasync
    refine ⟨msg, ?_⟩
    simp [NewExchangePool, bootFold, bootStep, provisionFatal, hst, hctor, hprov]
  · intro e h
    simp [NewExchangePool, bootFold, bootStep, h]
  · intro e hst h
    simp [NewExchangePool, bootFold, bootStep, hst, h]
  · intro e hst h
    simp [NewExchangePool, bootFold, bootStep, hst, h]
  · intro e hst h
    simp [NewExchangePool, bootFold, bootStep, hst, h]

/-- A bootstrap environment whose binance ledger open fails. -/
def storageFailEnv : BootEnv :=
  { okEnv with binanceStorage := Except.error "open failed" }

/-- A bootstrap environment with one binance deposit assignment whose token
the resolver cannot resolve. -/
def tokenFailEnv : BootEnv :=
  { okEnv with
    assignments := fun name =>
      if name = "binance" then [("OMG", "0xdeadbeef")] else [],
    getInternalTokenByID := fun _ => Except.error "token not listed" }

/-- A bootstrap environment whose binance adapter constructor fails. -/
def ctorFailEnv : BootEnv :=
  { okEnv with binance := Except.error "ctor failed" }

/-- Witness for **C8**: concrete environments exercising a fatal ledger
open, a fatal token resolution, and a recoverable constructor failure. -/
theorem NewExchangePool_failure_severity_witness :
    NewExchangePool storageFailEnv ["binance"] = BootOutcome.fatal "open failed"
    ∧ (∃ msg, NewExchangePool tokenFailEnv ["binance"] = BootOutcome.fatal msg)
    ∧ NewExchangePool ctorFailEnv ["binance"] = BootOutcome.err "ctor failed" := by
  refine ⟨?_, ?_, ?_⟩
  · exact (NewExchangePool_failure_severity storageFailEnv).2.1 "open failed" rfl
  · exact (NewExchangePool_failure_severity tokenFailEnv).2.2.2.2.1
      "OMG" "0xdeadbeef" "token not listed" (by simp [tokenFailEnv, okEnv]) rfl
      rfl rfl
  · exact (NewExchangePool_failure_severity ctorFailEnv).2.2.2.2.2.2.2.2.1
      "ctor failed" rfl rfl
